import Mathlib

/-!
Verification of the tri-state selection tree of `llm_context_builder`.

The embedding models the checkbox tree of `file_tree_widget.py` and the
ignore matcher of `file_processor.py`:

* a `Node` is one `QTreeWidgetItem`: its stored path (`data(0, UserRole)`,
  `""` when the item carries no path data, as Python's `None` is falsy),
  its `is_dir` flag (`data(1, UserRole)`), whether its flags include
  `ItemIsUserCheckable`, its check state, and its child items in order;
* `cascadeNode`/`cascadeList` are `_set_check_state_recursive_children_only`;
* `recompute`/`updateParentState` are `_update_parent_state`;
* `setStateAux`/`set_state` are a user toggle of the item at a child-index
  path: the click stores the new state and `_handle_item_changed` runs
  (cascade down for a directory, then parent updates chained upward while
  a parent's recomputed state differs from its old one);
* `populateRec`/`populateEntries`/`buildTree` are
  `_populate_recursive`/`populate_tree` over an abstract filesystem;
* `get_selected_files` is the `QTreeWidgetItemIterator` traversal;
* `should_ignore` is `file_processor.should_ignore` over Python strings
  viewed as code-point sequences.
-/

/-- Qt.CheckState: Unchecked, PartiallyChecked, Checked. -/
inductive CheckState where
  | Unchecked
  | PartiallyChecked
  | Checked
deriving DecidableEq

/-- One tree item: stored path (empty string models absent path data),
is-directory flag, whether the item is user-checkable, its check state and
its ordered children. -/
inductive Node where
  | mk (path : String) (isDir : Bool) (checkable : Bool) (state : CheckState)
       (children : List Node)

def Node.path : Node → String
  | .mk p _ _ _ _ => p

def Node.isDir : Node → Bool
  | .mk _ d _ _ _ => d

def Node.checkable : Node → Bool
  | .mk _ _ c _ _ => c

def Node.state : Node → CheckState
  | .mk _ _ _ st _ => st

def Node.children : Node → List Node
  | .mk _ _ _ _ ch => ch

@[simp] theorem Node.path_mk (p d c st ch) : (Node.mk p d c st ch).path = p := rfl
@[simp] theorem Node.isDir_mk (p d c st ch) : (Node.mk p d c st ch).isDir = d := rfl
@[simp] theorem Node.checkable_mk (p d c st ch) : (Node.mk p d c st ch).checkable = c := rfl
@[simp] theorem Node.state_mk (p d c st ch) : (Node.mk p d c st ch).state = st := rfl
@[simp] theorem Node.children_mk (p d c st ch) : (Node.mk p d c st ch).children = ch := rfl

mutual
/-- A node together with all of its descendants, in depth-first order. -/
def subNodes : Node → List Node
  | .mk p d c st ch => .mk p d c st ch :: subNodesList ch

def subNodesList : List Node → List Node
  | [] => []
  | n :: ns => subNodes n ++ subNodesList ns
end

/-- Follow a path of child indices down from a node. -/
def getAt : Node → List Nat → Option Node
  | n, [] => some n
  | n, i :: rest =>
    match n.children[i]? with
    | some c => getAt c rest
    | none => none

/-- Loop of `_update_parent_state`: `total_checkable_children`. -/
def countCheckable : List Node → Nat
  | [] => 0
  | c :: cs => (if c.checkable = true then 1 else 0) + countCheckable cs

/-- Loop of `_update_parent_state`: how many checkable children hold state `s`
(`checked_count`, `unchecked_count`, `partially_checked_count`). -/
def countInState (s : CheckState) : List Node → Nat
  | [] => 0
  | c :: cs => (if c.checkable = true ∧ c.state = s then 1 else 0) + countInState s cs

/-- Branching of `_update_parent_state` (file_tree_widget.py lines 267-278):
no checkable children yields Checked; any partially checked child yields
PartiallyChecked; all checked yields Checked; all unchecked yields Unchecked;
otherwise (a mix) PartiallyChecked. -/
def recompute (cs : List Node) : CheckState :=
  if countCheckable cs = 0 then CheckState.Checked
  else if 0 < countInState CheckState.PartiallyChecked cs then CheckState.PartiallyChecked
  else if countInState CheckState.Checked cs = countCheckable cs then CheckState.Checked
  else if countInState CheckState.Unchecked cs = countCheckable cs then CheckState.Unchecked
  else CheckState.PartiallyChecked

/-- The body of `_update_parent_state` applied to one item: its state becomes the value
recomputed from its children (`setCheckState` is skipped when the value is
unchanged, which yields the same node); nothing else is touched. -/
def updateParentState : Node → Node
  | .mk p d c _ ch => .mk p d c (recompute ch) ch

mutual
/-- One child step of `_set_check_state_recursive_children_only`: a checkable
child gets the state and, when it is a directory, its own children recurse;
a non-checkable child is left alone. -/
def cascadeNode (s : CheckState) : Node → Node
  | .mk p d c st ch =>
    if c = true then .mk p d c s (if d = true then cascadeList s ch else ch)
    else .mk p d c st ch

/-- Loop of `_set_check_state_recursive_children_only` over a children list. -/
def cascadeList (s : CheckState) : List Node → List Node
  | [] => []
  | n :: ns => cascadeNode s n :: cascadeList s ns
end

/-- A user toggle landing on one item: Qt stores the new state only when it
differs (no `itemChanged` signal fires otherwise), and then
`_handle_item_changed` cascades the state to all checkable descendants when
the item is a directory and the state is not PartiallyChecked
(file_tree_widget.py lines 189-192). -/
def toggleNode (s : CheckState) : Node → Node
  | .mk p d c st ch =>
    if st = s then .mk p d c st ch
    else .mk p d c s
      (if d = true ∧ ¬ s = CheckState.PartiallyChecked then cascadeList s ch else ch)

/-- Modelled from the spec: `set_state` at a child-index path. The descent
reaches the toggled item and applies `toggleNode`; on the way back up every
ancestor whose child's state changed is passed through `_update_parent_state`,
and the chain stops early at an ancestor whose recomputed state equals its old
state, or at the tree root. In the source the per-level update is
`_update_parent_state` (lines 245-282) and the upward chaining is carried by
Qt's `itemChanged` signal delivery (`setCheckState` emits the signal only for
an actual change), which is library behavior outside `src/`; the spec words
it as "continue recomputing upward ancestor-by-ancestor until reaching the
tree root or until an ancestor's computed state does not change". A path
pointing outside the tree changes nothing. -/
def setStateAux (s : CheckState) : List Nat → Node → Node × Bool
  | [], n => (toggleNode s n, decide (¬ n.state = s))
  | i :: rest, .mk p d c st ch =>
    match ch[i]? with
    | none => (.mk p d c st ch, false)
    | some child =>
      let r := setStateAux s rest child
      if r.2 = true then
        let n' := updateParentState (.mk p d c st (ch.set i r.1))
        (n', decide (¬ n'.state = st))
      else (.mk p d c st (ch.set i r.1), false)

/-- User-initiated `set_state` of the node at position `pos` to `s`. -/
def set_state (t : Node) (pos : List Nat) (s : CheckState) : Node :=
  (setStateAux s pos t).1

/-! Ignore matcher (`file_processor.py`). Python strings are sequences of
code points, so the string operations are modelled on `String.data`. -/

/-- Python `s.startswith(pre)`. -/
def startswith (s pre : String) : Bool := pre.data.isPrefixOf s.data

/-- Python `s.endswith(suffix)`. -/
def endswith (s suffix : String) : Bool := suffix.data.isSuffixOf s.data

/-- Python `s[1:]`. -/
def drop1 (s : String) : String := String.mk (s.data.drop 1)

/-- The `DEFAULT_IGNORE_PATTERNS` set of file_processor.py (a Python set; modelled as
the list of its members, membership being all that is ever used). -/
def DEFAULT_IGNORE_PATTERNS : List String :=
  [".git", "__pycache__", ".vscode", ".idea", "node_modules", "venv",
   ".DS_Store", "*.pyc", "*.log", "*.tmp", "*.swp"]

/-- Function `should_ignore` of file_processor.py lines 31-39: exact membership, or
some pattern starts with "*." and the name ends with the pattern minus its
leading "*". -/
def should_ignore (name : String) (ignore_patterns : List String) : Bool :=
  ignore_patterns.contains name ||
    ignore_patterns.any fun pattern =>
      startswith pattern "*." && endswith name (drop1 pattern)

/-! Tree builder over an abstract filesystem. An `FSEntry` records what the
build walk can observe about one directory entry: `.dir` when
`os.path.isdir` holds (with whether `os.listdir` succeeds, and its entries),
`.file` when `os.path.isfile` holds, `.other` when neither does (sockets,
devices, dangling symlinks; `isdir`/`isfile` follow symlinks). -/
inductive FSEntry where
  | file (name : String)
  | dir (name : String) (readable : Bool) (entries : List FSEntry)
  | other (name : String)

def entryName : FSEntry → String
  | .file n => n
  | .dir n _ _ => n
  | .other n => n

/-- Python's lexicographic string order, comparing code points. -/
def charListLe : List Char → List Char → Bool
  | [], _ => true
  | _ :: _, [] => false
  | a :: as, b :: bs =>
    if a.toNat < b.toNat then true
    else if b.toNat < a.toNat then false
    else charListLe as bs

def strLe (a b : String) : Bool := charListLe a.data b.data

/-- Stable insertion by name, used to model Python's `sorted(entries)`.
Directory listings never repeat a name, so every comparison sort produces
this same list. -/
def insertByName (e : FSEntry) : List FSEntry → List FSEntry
  | [] => [e]
  | x :: xs =>
    if strLe (entryName e) (entryName x) = true then e :: x :: xs
    else x :: insertByName e xs

def sortByName : List FSEntry → List FSEntry
  | [] => []
  | x :: xs => insertByName x (sortByName xs)

theorem insertByName_perm (e : FSEntry) (l : List FSEntry) :
    (insertByName e l).Perm (e :: l) := by
  induction l with
  | nil => simp [insertByName]
  | cons x xs ih =>
    simp only [insertByName]
    split
    · exact List.Perm.refl _
    · exact (ih.cons x).trans (List.Perm.swap e x xs)

theorem sortByName_perm (l : List FSEntry) : (sortByName l).Perm l := by
  induction l with
  | nil => simp [sortByName]
  | cons x xs ih => exact (insertByName_perm x (sortByName xs)).trans (ih.cons x)

theorem sortByName_sizeOf (l : List FSEntry) : sizeOf (sortByName l) = sizeOf l :=
  (sortByName_perm l).sizeOf_eq_sizeOf

/-- The synthetic "Error accessing folder content" item: no path data, no
is-dir data, not user-checkable, check state never set (Qt default
Unchecked), no children. -/
def errorChildNode : Node := Node.mk "" false false CheckState.Unchecked []

/-- Python `os.path.join` for a relative name under a POSIX directory path. -/
def joinPath (a b : String) : String := a ++ "/" ++ b

mutual
/-- Body of `_populate_recursive(directory_path, parent_item)`: on a listing failure
a single non-checkable error item; otherwise the sorted entries are walked. -/
def populateRec (pats : List String) (dirPath : String) (readable : Bool)
    (entries : List FSEntry) : List Node :=
  if readable then populateEntries pats dirPath (sortByName entries)
  else [errorChildNode]
termination_by sizeOf entries + 1
decreasing_by simp_arith [sortByName_sizeOf]

/-- Loop body of `_populate_recursive`: ignored names are skipped, a
directory is added (via `_add_item`) and recursed into, a regular file is
added, anything else is silently skipped. Items are created without a check
state (Qt default Unchecked). -/
def populateEntries (pats : List String) (dirPath : String) : List FSEntry → List Node
  | [] => []
  | e :: es =>
    (if should_ignore (entryName e) pats = true then []
     else
       match e with
       | .dir name r sub =>
         [Node.mk (joinPath dirPath name) true true CheckState.Unchecked
            (populateRec pats (joinPath dirPath name) r sub)]
       | .file name =>
         [Node.mk (joinPath dirPath name) false true CheckState.Unchecked []]
       | .other _ => []) ++ populateEntries pats dirPath es
termination_by es => sizeOf es
decreasing_by all_goals simp_arith
end

/-- The fatal build failure of `populate_tree`: root path missing or not a
directory (surfaced by the widget as a red error row and a cleared
`project_root`; no file tree is constructed). -/
inductive BuildError where
  | invalidRoot

/-- Whether `os.path.isdir(root_path)` holds for the stat result of the root. -/
def isDirRoot : Option FSEntry → Bool
  | some (.dir _ _ _) => true
  | _ => false

/-- Method `populate_tree` as a tree builder: fails unless the root path is a
directory; otherwise builds the root item (path = the absolute root path,
directory, checkable) with the recursive population below it, and then
applies `_set_check_state_recursive(invisibleRootItem(), Checked)`, which for
the single top-level item sets it Checked and forces every checkable
descendant Checked (this final pass runs `cascadeNode CheckState.Checked`). -/
def buildTree (rootPath : String) (fsRoot : Option FSEntry) (pats : List String) :
    Except BuildError Node :=
  match fsRoot with
  | some (.dir _ readable entries) =>
    .ok (cascadeNode CheckState.Checked
      (Node.mk rootPath true true CheckState.Unchecked
        (populateRec pats rootPath readable entries)))
  | _ => .error BuildError.invalidRoot

mutual
/-- Method `get_selected_files`: the `QTreeWidgetItemIterator` walks the tree in
depth-first order; an item is collected when it is not a directory, its check
state is Checked, and its stored path data is truthy. -/
def get_selected_files : Node → List String
  | .mk p d _ st ch =>
    (if d = false ∧ st = CheckState.Checked then
       (if p = "" then [] else [p])
     else []) ++ selectedList ch

def selectedList : List Node → List String
  | [] => []
  | n :: ns => get_selected_files n ++ selectedList ns
end

/-- Stated from the spec's words, for comparison with `get_selected_files`:
the paths of the nodes that are files, selectable, and Checked, in the
tree's depth-first order. -/
def selectedSpec (t : Node) : List String :=
  (subNodes t).filterMap fun m =>
    if m.isDir = false ∧ m.checkable = true ∧ m.state = CheckState.Checked
    then some m.path else none

/-! The widget state around the tree (`project_root`, `_ignore_patterns`). -/

structure Widget where
  project_root : Option String
  ignore_patterns : List String
  tree : Option Node

/-- Method `populate_tree(directory_path)` at the widget level: `stat` is the
filesystem; the path (already absolute, `os.path.abspath` never yields an
empty result) becomes `project_root` on success; on an invalid root the
widget keeps no tree and `project_root` becomes `None`. -/
def populate_tree (w : Widget) (directory_path : String)
    (stat : String → Option FSEntry) : Widget :=
  match buildTree directory_path (stat directory_path) w.ignore_patterns with
  | .ok t => { w with project_root := some directory_path, tree := some t }
  | .error _ => { w with project_root := none, tree := none }

/-- Method `set_ignore_patterns(patterns)`: store the new patterns, and when a
project root is present repopulate the tree from it. -/
def set_ignore_patterns (w : Widget) (patterns : List String)
    (stat : String → Option FSEntry) : Widget :=
  let w' := { w with ignore_patterns := patterns }
  match w.project_root with
  | some root => populate_tree w' root stat
  | none => w'

/-! Structural predicates used as hypotheses: they hold of every built tree
and are phrased over the model only. -/

/-- Local well-formedness: an item that is not checkable, or not a
directory, has no children (in built trees, files and synthetic error items
are leaves). -/
def wfNode (n : Node) : Prop :=
  (n.checkable = false ∨ n.isDir = false) → n.children.isEmpty = true

/-- Every node of the tree is locally well-formed. -/
def Wf (t : Node) : Prop := ∀ m ∈ subNodes t, wfNode m

/-- Local consistency: a node with at least one checkable child displays the
state recomputed from its children. -/
def consistentNode (m : Node) : Prop :=
  (∃ c ∈ m.children, c.checkable = true) → m.state = recompute m.children

/-- Every node of the tree is locally consistent. -/
def Consistent (t : Node) : Prop := ∀ m ∈ subNodes t, consistentNode m

/-- Every node along a child-index path exists and is user-checkable (a user
can only toggle a checkable item, and in built trees every ancestor of a
checkable item is checkable). -/
def pathCheckable : Node → List Nat → Bool
  | n, [] => n.checkable
  | n, i :: rest =>
    n.checkable &&
      (match n.children[i]? with
       | some c => pathCheckable c rest
       | none => false)

instance (n : Node) : Decidable (wfNode n) := by
  unfold wfNode; infer_instance

instance (t : Node) : Decidable (Wf t) := by
  unfold Wf; infer_instance

instance (m : Node) : Decidable (consistentNode m) := by
  unfold consistentNode; infer_instance

instance (t : Node) : Decidable (Consistent t) := by
  unfold Consistent; infer_instance

/-! Basic facts about `subNodes` membership. -/

@[simp] theorem subNodes_mk (p d c st ch) :
    subNodes (Node.mk p d c st ch) = Node.mk p d c st ch :: subNodesList ch := by
  rw [subNodes]

@[simp] theorem subNodesList_nil : subNodesList [] = [] := by
  rw [subNodesList]

@[simp] theorem subNodesList_cons (n : Node) (ns : List Node) :
    subNodesList (n :: ns) = subNodes n ++ subNodesList ns := by
  rw [subNodesList]

theorem self_mem_subNodes (n : Node) : n ∈ subNodes n := by
  cases n with
  | mk p d c st ch => simp

theorem mem_subNodesList_self {l : List Node} {c : Node} (h : c ∈ l) :
    c ∈ subNodesList l := by
  induction l with
  | nil => cases h
  | cons x xs ih =>
    rw [subNodesList_cons]
    rcases List.mem_cons.mp h with h1 | h2
    · exact List.mem_append.mpr (Or.inl (by rw [h1]; exact self_mem_subNodes x))
    · exact List.mem_append.mpr (Or.inr (ih h2))

mutual
theorem mem_subNodes_trans (n : Node) {m k : Node}
    (h1 : m ∈ subNodes n) (h2 : k ∈ subNodes m) : k ∈ subNodes n := by
  cases n with
  | mk p d c st ch =>
    rw [subNodes_mk] at h1 ⊢
    rcases List.mem_cons.mp h1 with rfl | hm
    · exact h2
    · exact List.mem_cons_of_mem _ (mem_subNodesList_trans ch hm h2)

theorem mem_subNodesList_trans (l : List Node) {m k : Node}
    (h1 : m ∈ subNodesList l) (h2 : k ∈ subNodes m) : k ∈ subNodesList l := by
  cases l with
  | nil => simp at h1
  | cons x xs =>
    rw [subNodesList_cons] at h1 ⊢
    rcases List.mem_append.mp h1 with hx | hxs
    · exact List.mem_append.mpr (Or.inl (mem_subNodes_trans x hx h2))
    · exact List.mem_append.mpr (Or.inr (mem_subNodesList_trans xs hxs h2))
end

theorem children_mem_subNodes {m c : Node} (h : c ∈ m.children) : c ∈ subNodes m := by
  cases m with
  | mk p d cb st ch =>
    rw [subNodes_mk]
    exact List.mem_cons_of_mem _ (mem_subNodesList_self (by simpa using h))

theorem getAt_mem {pos : List Nat} {t n : Node} (h : getAt t pos = some n) :
    n ∈ subNodes t := by
  induction pos generalizing t with
  | nil =>
    rw [getAt] at h
    cases h
    exact self_mem_subNodes _
  | cons i rest ih =>
    rw [getAt] at h
    cases hc : t.children[i]? with
    | none => rw [hc] at h; cases h
    | some c =>
      rw [hc] at h
      exact mem_subNodes_trans t
        (children_mem_subNodes (List.getElem?_mem hc)) (ih h)

theorem consistent_restrict {t m : Node} (h : Consistent t) (hm : m ∈ subNodes t) :
    Consistent m :=
  fun k hk => h k (mem_subNodes_trans t hm hk)

theorem wf_restrict {t m : Node} (h : Wf t) (hm : m ∈ subNodes t) : Wf m :=
  fun k hk => h k (mem_subNodes_trans t hm hk)

/-! Characterization of `recompute` through the checkable children. -/

theorem countCheckable_eq_filter (cs : List Node) :
    countCheckable cs = (cs.filter fun c => c.checkable).length := by
  induction cs with
  | nil => rfl
  | cons c cs ih =>
    rw [countCheckable, ih, List.filter_cons]
    by_cases h : c.checkable = true <;> simp [h, Nat.add_comm]

theorem countInState_eq_filter (s : CheckState) (cs : List Node) :
    countInState s cs =
      (cs.filter fun c => c.checkable).countP fun c => decide (c.state = s) := by
  induction cs with
  | nil => rfl
  | cons c cs ih =>
    rw [countInState, ih, List.filter_cons]
    by_cases h : c.checkable = true
    · by_cases h2 : c.state = s <;> simp [h, h2, List.countP_cons] <;> omega
    · simp [h]

theorem countInState_eq_countCheckable_iff (s : CheckState) (cs : List Node) :
    countInState s cs = countCheckable cs ↔
      ∀ c ∈ cs, c.checkable = true → c.state = s := by
  rw [countInState_eq_filter, countCheckable_eq_filter]
  rw [List.countP_eq_length]
  constructor
  · intro h c hc hcb
    have := h c (List.mem_filter.mpr ⟨hc, hcb⟩)
    simpa using this
  · intro h c hc
    rcases List.mem_filter.mp hc with ⟨h1, h2⟩
    simpa using h c h1 h2

theorem countInState_pos_iff (s : CheckState) (cs : List Node) :
    0 < countInState s cs ↔ ∃ c ∈ cs, c.checkable = true ∧ c.state = s := by
  rw [countInState_eq_filter, List.countP_pos]
  constructor
  · rintro ⟨c, hc, hcs⟩
    rcases List.mem_filter.mp hc with ⟨h1, h2⟩
    exact ⟨c, h1, h2, by simpa using hcs⟩
  · rintro ⟨c, hc, h1, h2⟩
    exact ⟨c, List.mem_filter.mpr ⟨hc, h1⟩, by simpa using h2⟩

theorem countCheckable_eq_zero_iff (cs : List Node) :
    countCheckable cs = 0 ↔ ∀ c ∈ cs, c.checkable = false := by
  rw [countCheckable_eq_filter, List.length_eq_zero, List.filter_eq_nil_iff]
  constructor
  · intro h c hc
    have := h c hc
    simpa using this
  · intro h c hc
    simp [h c hc]

theorem countCheckable_pos_exists {cs : List Node} (h : countCheckable cs ≠ 0) :
    ∃ c ∈ cs, c.checkable = true := by
  by_contra hall
  push_neg at hall
  exact h ((countCheckable_eq_zero_iff cs).mpr (by
    intro c hc
    have := hall c hc
    simpa using this))

theorem recompute_eq_checked_iff (cs : List Node) :
    recompute cs = CheckState.Checked ↔
      ∀ c ∈ cs, c.checkable = true → c.state = CheckState.Checked := by
  unfold recompute
  split_ifs with h1 h2 h3 h4
  · simp only [true_iff]
    intro c hc hcb
    exact absurd hcb (by simp [((countCheckable_eq_zero_iff cs).mp h1) c hc])
  · simp only [reduceCtorEq, false_iff]
    intro hall
    rcases (countInState_pos_iff _ cs).mp h2 with ⟨c, hc, hcb, hcs⟩
    have := hall c hc hcb
    rw [this] at hcs
    cases hcs
  · simp only [true_iff]
    exact (countInState_eq_countCheckable_iff _ cs).mp h3
  · simp only [reduceCtorEq, false_iff]
    intro hall
    exact h3 ((countInState_eq_countCheckable_iff _ cs).mpr hall)
  · simp only [reduceCtorEq, false_iff]
    intro hall
    exact h3 ((countInState_eq_countCheckable_iff _ cs).mpr hall)

theorem recompute_eq_unchecked_iff (cs : List Node) :
    recompute cs = CheckState.Unchecked ↔
      ((∃ c ∈ cs, c.checkable = true) ∧
        ∀ c ∈ cs, c.checkable = true → c.state = CheckState.Unchecked) := by
  unfold recompute
  split_ifs with h1 h2 h3 h4
  · simp only [reduceCtorEq, false_iff]
    rintro ⟨⟨c, hc, hcb⟩, _⟩
    exact absurd hcb (by simp [((countCheckable_eq_zero_iff cs).mp h1) c hc])
  · simp only [reduceCtorEq, false_iff]
    rintro ⟨_, hall⟩
    rcases (countInState_pos_iff _ cs).mp h2 with ⟨c, hc, hcb, hcs⟩
    have := hall c hc hcb
    rw [this] at hcs
    cases hcs
  · simp only [reduceCtorEq, false_iff]
    rintro ⟨⟨c, hc, hcb⟩, hall⟩
    have hchecked := (countInState_eq_countCheckable_iff _ cs).mp h3 c hc hcb
    have huncheck := hall c hc hcb
    rw [hchecked] at huncheck
    cases huncheck
  · simp only [true_iff]
    exact ⟨countCheckable_pos_exists h1,
      (countInState_eq_countCheckable_iff _ cs).mp h4⟩
  · simp only [reduceCtorEq, false_iff]
    rintro ⟨_, hall⟩
    exact h4 ((countInState_eq_countCheckable_iff _ cs).mpr hall)

theorem recompute_eq_mixed_iff (cs : List Node) :
    recompute cs = CheckState.PartiallyChecked ↔
      ((∃ c ∈ cs, c.checkable = true ∧ c.state = CheckState.PartiallyChecked) ∨
       ((∃ c ∈ cs, c.checkable = true ∧ c.state = CheckState.Checked) ∧
        (∃ c ∈ cs, c.checkable = true ∧ c.state = CheckState.Unchecked))) := by
  unfold recompute
  split_ifs with h1 h2 h3 h4
  · simp only [reduceCtorEq, false_iff]
    rintro (⟨c, hc, hcb, _⟩ | ⟨⟨c, hc, hcb, _⟩, _⟩) <;>
      exact absurd hcb (by simp [((countCheckable_eq_zero_iff cs).mp h1) c hc])
  · simp only [true_iff]
    exact Or.inl ((countInState_pos_iff _ cs).mp h2)
  · simp only [reduceCtorEq, false_iff]
    rintro (⟨c, hc, hcb, hcs⟩ | ⟨_, ⟨c, hc, hcb, hcs⟩⟩) <;>
    · have := (countInState_eq_countCheckable_iff _ cs).mp h3 c hc hcb
      rw [this] at hcs
      cases hcs
  · simp only [reduceCtorEq, false_iff]
    rintro (⟨c, hc, hcb, hcs⟩ | ⟨⟨c, hc, hcb, hcs⟩, _⟩) <;>
    · have := (countInState_eq_countCheckable_iff _ cs).mp h4 c hc hcb
      rw [this] at hcs
      cases hcs
  · simp only [true_iff]
    right
    have hnop : ∀ c ∈ cs, c.checkable = true → ¬ c.state = CheckState.PartiallyChecked := by
      intro c hc hcb hp
      exact h2 ((countInState_pos_iff _ cs).mpr ⟨c, hc, hcb, hp⟩)
    constructor
    · have hne : ¬ ∀ c ∈ cs, c.checkable = true → c.state = CheckState.Unchecked :=
        fun hall => h4 ((countInState_eq_countCheckable_iff _ cs).mpr hall)
      push_neg at hne
      rcases hne with ⟨c, hc, hcb, hcne⟩
      refine ⟨c, hc, hcb, ?_⟩
      rcases hx : c.state with _ | _ | _
      · exact absurd hx hcne
      · exact absurd hx (hnop c hc hcb)
      · rfl
    · have hne : ¬ ∀ c ∈ cs, c.checkable = true → c.state = CheckState.Checked :=
        fun hall => h3 ((countInState_eq_countCheckable_iff _ cs).mpr hall)
      push_neg at hne
      rcases hne with ⟨c, hc, hcb, hcne⟩
      refine ⟨c, hc, hcb, ?_⟩
      rcases hx : c.state with _ | _ | _
      · rfl
      · exact absurd hx (hnop c hc hcb)
      · exact absurd hx hcne

/-- C3: `recompute` derives a directory's state purely from its immediate
checkable children's current states: Checked iff every checkable child is
Checked (in particular when there are none, the zero-children convention);
Unchecked iff there is at least one checkable child and all checkable
children are Unchecked; PartiallyChecked iff some checkable child is
PartiallyChecked or there is a mix of Checked and Unchecked children. -/
theorem recompute_characterization (cs : List Node) :
    (recompute cs = CheckState.Checked ↔
      ∀ c ∈ cs, c.checkable = true → c.state = CheckState.Checked) ∧
    (recompute cs = CheckState.Unchecked ↔
      ((∃ c ∈ cs, c.checkable = true) ∧
        ∀ c ∈ cs, c.checkable = true → c.state = CheckState.Unchecked)) ∧
    (recompute cs = CheckState.PartiallyChecked ↔
      ((∃ c ∈ cs, c.checkable = true ∧ c.state = CheckState.PartiallyChecked) ∨
       ((∃ c ∈ cs, c.checkable = true ∧ c.state = CheckState.Checked) ∧
        (∃ c ∈ cs, c.checkable = true ∧ c.state = CheckState.Unchecked)))) ∧
    ((∀ c ∈ cs, c.checkable = false) → recompute cs = CheckState.Checked) :=
  ⟨recompute_eq_checked_iff cs, recompute_eq_unchecked_iff cs,
   recompute_eq_mixed_iff cs,
   fun h => (recompute_eq_checked_iff cs).mpr
     (fun c hc hcb => absurd hcb (by simp [h c hc]))⟩

/-- Witness for the conditional part of the characterization at a concrete
children list. -/
theorem recompute_characterization_witness :
    recompute [Node.mk "a" false true CheckState.Checked []] = CheckState.Checked :=
  ((recompute_characterization [Node.mk "a" false true CheckState.Checked []]).1).mpr
    (by decide)

/-! Downward cascade forces every checkable node of a well-formed subtree to
the cascaded state. -/

theorem bool_false_of_not_true {b : Bool} (h : ¬ b = true) : b = false := by
  cases b
  · rfl
  · exact absurd rfl h

mutual
theorem cascadeNode_forces (s : CheckState) (n : Node)
    (hwf : ∀ m ∈ subNodes n, wfNode m) :
    ∀ m ∈ subNodes (cascadeNode s n), m.checkable = true → m.state = s := by
  cases n with
  | mk p d c st ch =>
    rw [cascadeNode]
    by_cases hc : c = true
    · rw [if_pos hc]
      by_cases hd : d = true
      · rw [if_pos hd]
        intro m hm hmc
        rw [subNodes_mk] at hm
        rcases List.mem_cons.mp hm with rfl | hm2
        · simp
        · exact cascadeList_forces s ch
            (fun k hk => hwf k (by
              rw [subNodes_mk]; exact List.mem_cons_of_mem _ hk)) m hm2 hmc
      · rw [if_neg hd]
        have hch : ch = [] := by
          have := hwf (Node.mk p d c st ch) (self_mem_subNodes _)
            (Or.inr (by simpa using bool_false_of_not_true hd))
          simpa [List.isEmpty_iff] using this
        subst hch
        intro m hm hmc
        rw [subNodes_mk] at hm
        rcases List.mem_cons.mp hm with rfl | hm2
        · simp
        · simp at hm2
    · rw [if_neg hc]
      have hch : ch = [] := by
        have := hwf (Node.mk p d c st ch) (self_mem_subNodes _)
          (Or.inl (by simpa using bool_false_of_not_true hc))
        simpa [List.isEmpty_iff] using this
      subst hch
      intro m hm hmc
      rw [subNodes_mk] at hm
      rcases List.mem_cons.mp hm with rfl | hm2
      · exact absurd (by simpa using hmc) hc
      · simp at hm2

theorem cascadeList_forces (s : CheckState) (l : List Node)
    (hwf : ∀ m ∈ subNodesList l, wfNode m) :
    ∀ m ∈ subNodesList (cascadeList s l), m.checkable = true → m.state = s := by
  cases l with
  | nil =>
    intro m hm
    rw [cascadeList] at hm
    simp at hm
  | cons x xs =>
    rw [cascadeList]
    intro m hm hmc
    rw [subNodesList_cons] at hm
    rcases List.mem_append.mp hm with h1 | h2
    · exact cascadeNode_forces s x
        (fun k hk => hwf k (by
          rw [subNodesList_cons]; exact List.mem_append.mpr (Or.inl hk))) m h1 hmc
    · exact cascadeList_forces s xs
        (fun k hk => hwf k (by
          rw [subNodesList_cons]; exact List.mem_append.mpr (Or.inr hk))) m h2 hmc
end

/-! In a well-formed, consistent subtree whose root already displays a fully
determined state (Checked or Unchecked), every checkable node below already
holds that state: the aggregation rule leaves no other possibility. -/

mutual
theorem consistent_forces_node (s : CheckState) (n : Node)
    (hwf : ∀ m ∈ subNodes n, wfNode m)
    (hcons : ∀ m ∈ subNodes n, consistentNode m)
    (hs : s = CheckState.Checked ∨ s = CheckState.Unchecked)
    (hst : n.state = s) :
    ∀ m ∈ subNodes n, m.checkable = true → m.state = s := by
  cases n with
  | mk p d c st ch =>
    intro m hm hmc
    rw [subNodes_mk] at hm
    rcases List.mem_cons.mp hm with rfl | hm2
    · simpa using hst
    · have hchildren : ∀ x ∈ ch, x.checkable = true → x.state = s := by
        by_cases hex : ∃ x ∈ ch, x.checkable = true
        · have hcn := hcons (Node.mk p d c st ch) (self_mem_subNodes _)
          have heq : st = recompute ch := by simpa using hcn (by simpa using hex)
          rcases hs with rfl | rfl
          · exact (recompute_eq_checked_iff ch).mp
              (by rw [← heq]; simpa using hst)
          · exact ((recompute_eq_unchecked_iff ch).mp
              (by rw [← heq]; simpa using hst)).2
        · push_neg at hex
          intro x hx hxc
          exact absurd hxc (hex x hx)
      exact consistent_forces_list s ch
        (fun k hk => hwf k (by
          rw [subNodes_mk]; exact List.mem_cons_of_mem _ hk))
        (fun k hk => hcons k (by
          rw [subNodes_mk]; exact List.mem_cons_of_mem _ hk))
        hs hchildren m hm2 hmc

theorem consistent_forces_list (s : CheckState) (l : List Node)
    (hwf : ∀ m ∈ subNodesList l, wfNode m)
    (hcons : ∀ m ∈ subNodesList l, consistentNode m)
    (hs : s = CheckState.Checked ∨ s = CheckState.Unchecked)
    (hl : ∀ x ∈ l, x.checkable = true → x.state = s) :
    ∀ m ∈ subNodesList l, m.checkable = true → m.state = s := by
  cases l with
  | nil =>
    intro m hm
    simp at hm
  | cons x xs =>
    intro m hm hmc
    rw [subNodesList_cons] at hm
    rcases List.mem_append.mp hm with h1 | h2
    · by_cases hxc : x.checkable = true
      · exact consistent_forces_node s x
          (fun k hk => hwf k (by
            rw [subNodesList_cons]; exact List.mem_append.mpr (Or.inl hk)))
          (fun k hk => hcons k (by
            rw [subNodesList_cons]; exact List.mem_append.mpr (Or.inl hk)))
          hs (hl x (List.mem_cons_self x xs) hxc) m h1 hmc
      · have hwfx := hwf x (by
          rw [subNodesList_cons]
          exact List.mem_append.mpr (Or.inl (self_mem_subNodes x)))
        have hch : x.children.isEmpty = true :=
          hwfx (Or.inl (bool_false_of_not_true hxc))
        cases x with
        | mk p d c st ch =>
          have hnil : ch = [] := by simpa [List.isEmpty_iff] using hch
          subst hnil
          rw [subNodes_mk] at h1
          rcases List.mem_cons.mp h1 with rfl | h3
          · exact absurd (by simpa using hmc) (by simpa using hxc)
          · simp at h3
    · exact consistent_forces_list s xs
        (fun k hk => hwf k (by
          rw [subNodesList_cons]; exact List.mem_append.mpr (Or.inr hk)))
        (fun k hk => hcons k (by
          rw [subNodesList_cons]; exact List.mem_append.mpr (Or.inr hk)))
        hs (fun y hy => hl y (List.mem_cons_of_mem x hy)) m h2 hmc
end

/-! Facts about a single toggle and about `setStateAux`. -/

theorem toggleNode_state (s : CheckState) (n : Node) : (toggleNode s n).state = s := by
  cases n with
  | mk p d c st ch =>
    rw [toggleNode]
    by_cases h : st = s
    · rw [if_pos h]; simpa using h
    · rw [if_neg h]; simp

theorem toggleNode_checkable (s : CheckState) (n : Node) :
    (toggleNode s n).checkable = n.checkable := by
  cases n with
  | mk p d c st ch =>
    rw [toggleNode]
    by_cases h : st = s
    · rw [if_pos h]
    · rw [if_neg h]; simp

theorem setStateAux_cons_none (s : CheckState) (i : Nat) (rest : List Nat)
    (p : String) (d c : Bool) (st : CheckState) (ch : List Node)
    (hc : ch[i]? = none) :
    setStateAux s (i :: rest) (Node.mk p d c st ch) = (Node.mk p d c st ch, false) := by
  rw [setStateAux, hc]

theorem setStateAux_cons_changed (s : CheckState) (i : Nat) (rest : List Nat)
    (p : String) (d c : Bool) (st : CheckState) (ch : List Node) (child : Node)
    (hc : ch[i]? = some child) (hb : (setStateAux s rest child).2 = true) :
    setStateAux s (i :: rest) (Node.mk p d c st ch) =
      (Node.mk p d c (recompute (ch.set i (setStateAux s rest child).1))
         (ch.set i (setStateAux s rest child).1),
       decide (¬ recompute (ch.set i (setStateAux s rest child).1) = st)) := by
  rw [setStateAux, hc]
  simp only [hb, if_true, updateParentState, Node.state_mk]

theorem setStateAux_cons_unchanged (s : CheckState) (i : Nat) (rest : List Nat)
    (p : String) (d c : Bool) (st : CheckState) (ch : List Node) (child : Node)
    (hc : ch[i]? = some child) (hb : (setStateAux s rest child).2 = false) :
    setStateAux s (i :: rest) (Node.mk p d c st ch) =
      (Node.mk p d c st (ch.set i (setStateAux s rest child).1), false) := by
  rw [setStateAux, hc]
  simp only [hb, Bool.false_eq_true, if_false]

theorem setStateAux_checkable (s : CheckState) (pos : List Nat) (t : Node) :
    ((setStateAux s pos t).1).checkable = t.checkable := by
  cases pos with
  | nil => simpa [setStateAux] using toggleNode_checkable s t
  | cons i rest =>
    cases t with
    | mk p d c st ch =>
      cases hc : ch[i]? with
      | none => rw [setStateAux_cons_none s i rest p d c st ch hc]
      | some child =>
        cases hb : (setStateAux s rest child).2 with
        | true =>
          rw [setStateAux_cons_changed s i rest p d c st ch child hc hb]
          rfl
        | false =>
          rw [setStateAux_cons_unchanged s i rest p d c st ch child hc hb]
          rfl

theorem setStateAux_state_of_not_changed (s : CheckState) (pos : List Nat) (t : Node)
    (h : (setStateAux s pos t).2 = false) :
    ((setStateAux s pos t).1).state = t.state := by
  cases pos with
  | nil =>
    rw [setStateAux] at h ⊢
    have hst : t.state = s := by simpa using h
    cases t with
    | mk p d c st ch =>
      simp only [Node.state_mk] at hst
      simp [toggleNode, if_pos hst]
  | cons i rest =>
    cases t with
    | mk p d c st ch =>
      cases hc : ch[i]? with
      | none =>
        rw [setStateAux_cons_none s i rest p d c st ch hc]
      | some child =>
        cases hb : (setStateAux s rest child).2 with
        | true =>
          rw [setStateAux_cons_changed s i rest p d c st ch child hc hb] at h ⊢
          have := (by simpa using h :
            recompute (ch.set i (setStateAux s rest child).1) = st)
          simpa using this
        | false =>
          rw [setStateAux_cons_unchanged s i rest p d c st ch child hc hb]
          rfl

theorem countCheckable_set {ch : List Node} {i : Nat} {c c' : Node}
    (h : ch[i]? = some c) (h1 : c'.checkable = c.checkable) :
    countCheckable (ch.set i c') = countCheckable ch := by
  induction ch generalizing i with
  | nil => simp at h
  | cons x xs ih =>
    cases i with
    | zero =>
      simp only [List.getElem?_cons_zero, Option.some.injEq] at h
      subst h
      simp [countCheckable, h1]
    | succ j =>
      simp only [List.getElem?_cons_succ] at h
      simp [countCheckable, ih h]

theorem countInState_set (s : CheckState) {ch : List Node} {i : Nat} {c c' : Node}
    (h : ch[i]? = some c) (h1 : c'.checkable = c.checkable) (h2 : c'.state = c.state) :
    countInState s (ch.set i c') = countInState s ch := by
  induction ch generalizing i with
  | nil => simp at h
  | cons x xs ih =>
    cases i with
    | zero =>
      simp only [List.getElem?_cons_zero, Option.some.injEq] at h
      subst h
      simp [countInState, h1, h2]
    | succ j =>
      simp only [List.getElem?_cons_succ] at h
      simp [countInState, ih h]

theorem recompute_set {ch : List Node} {i : Nat} {c c' : Node}
    (h : ch[i]? = some c) (h1 : c'.checkable = c.checkable) (h2 : c'.state = c.state) :
    recompute (ch.set i c') = recompute ch := by
  unfold recompute
  rw [countCheckable_set h h1, countInState_set _ h h1 h2,
    countInState_set _ h h1 h2, countInState_set _ h h1 h2]

theorem getAt_set_state (s : CheckState) (pos : List Nat) (t n : Node)
    (h : getAt t pos = some n) :
    getAt (set_state t pos s) pos = some (toggleNode s n) := by
  induction pos generalizing t with
  | nil =>
    rw [getAt] at h
    cases h
    rfl
  | cons i rest ih =>
    cases t with
    | mk p d c st ch =>
      rw [getAt] at h
      simp only [Node.children_mk] at h
      cases hc : ch[i]? with
      | none => rw [hc] at h; cases h
      | some child =>
        rw [hc] at h
        have hlt : i < ch.length := (List.getElem?_eq_some.mp hc).1
        unfold set_state
        cases hb : (setStateAux s rest child).2 with
        | true =>
          rw [setStateAux_cons_changed s i rest p d c st ch child hc hb]
          rw [getAt]
          simp only [Node.children_mk, List.getElem?_set_self, hlt, if_true]
          exact ih child h
        | false =>
          rw [setStateAux_cons_unchanged s i rest p d c st ch child hc hb]
          rw [getAt]
          simp only [Node.children_mk, List.getElem?_set_self, hlt, if_true]
          exact ih child h

theorem pathCheckable_head {t : Node} {pos : List Nat} (h : pathCheckable t pos = true) :
    t.checkable = true := by
  cases pos with
  | nil => simpa [pathCheckable] using h
  | cons i rest =>
    rw [pathCheckable] at h
    simp only [Bool.and_eq_true] at h
    exact h.1

/-- C1: after `set_state` of the node at `pos` to a fully determined state,
the recomputation of ancestor states has run upward ancestor-by-ancestor
from the toggled node's parent to the tree root (stopping early only where
an ancestor's recomputed state did not change, which leaves it agreeing with
the recomputation anyway): every proper ancestor of the toggled node
displays exactly the state recomputed from its updated children. In
particular, for a file two levels below the root, both its parent directory
and the root agree with their recomputed states. Hypotheses: the tree is
consistent, as built trees are, and the toggled node is reachable through
checkable nodes, as every user-clickable item is. -/
theorem set_state_recomputes_ancestors (s : CheckState) (pos : List Nat) :
    ∀ (t : Node) (apos : List Nat),
      Consistent t → pathCheckable t pos = true →
      (s = CheckState.Checked ∨ s = CheckState.Unchecked) →
      apos ≠ pos → (∃ rr, apos ++ rr = pos) →
      ∃ a, getAt (set_state t pos s) apos = some a ∧
        a.state = recompute a.children := by
  induction pos with
  | nil =>
    intro t apos hcons hpath hs hne hanc
    rcases hanc with ⟨rr, hrr⟩
    rcases List.append_eq_nil.mp hrr with ⟨h1, _⟩
    exact absurd h1 hne
  | cons i rest ih =>
    intro t apos hcons hpath hs hne hanc
    cases t with
    | mk p d c st ch =>
      rw [pathCheckable] at hpath
      simp only [Node.checkable_mk, Node.children_mk, Bool.and_eq_true] at hpath
      cases hc : ch[i]? with
      | none => rw [hc] at hpath; simp at hpath
      | some child =>
        rw [hc] at hpath
        obtain ⟨hcb, hpath2⟩ := hpath
        have hchild_cb : child.checkable = true := pathCheckable_head hpath2
        have hmem : child ∈ subNodes (Node.mk p d c st ch) :=
          children_mem_subNodes (by simpa using List.getElem?_mem hc)
        have hlt : i < ch.length := (List.getElem?_eq_some.mp hc).1
        cases apos with
        | nil =>
          cases hb : (setStateAux s rest child).2 with
          | true =>
            unfold set_state
            rw [setStateAux_cons_changed s i rest p d c st ch child hc hb]
            exact ⟨_, rfl, by simp⟩
          | false =>
            unfold set_state
            rw [setStateAux_cons_unchanged s i rest p d c st ch child hc hb]
            refine ⟨_, rfl, ?_⟩
            have hself : st = recompute ch := by
              have := hcons (Node.mk p d c st ch) (self_mem_subNodes _)
              simpa using this ⟨child, by simpa using List.getElem?_mem hc, hchild_cb⟩
            have hcong : recompute (ch.set i (setStateAux s rest child).1) =
                recompute ch :=
              recompute_set hc (setStateAux_checkable s rest child)
                (setStateAux_state_of_not_changed s rest child hb)
            simp only [Node.state_mk, Node.children_mk]
            rw [hcong, hself]
        | cons j apos' =>
          rcases hanc with ⟨rr, hrr⟩
          rw [List.cons_append] at hrr
          injection hrr with hji hrr2
          subst hji
          have hne' : apos' ≠ rest := by
            intro heq
            exact hne (by rw [heq])
          have hih := ih child apos' (consistent_restrict hcons hmem) hpath2 hs hne' ⟨rr, hrr2⟩
          rcases hih with ⟨a, ha1, ha2⟩
          refine ⟨a, ?_, ha2⟩
          cases hb : (setStateAux s rest child).2 with
          | true =>
            unfold set_state
            rw [setStateAux_cons_changed s j rest p d c st ch child hc hb]
            rw [getAt]
            simp only [Node.children_mk, List.getElem?_set_self, hlt, if_true]
            exact ha1
          | false =>
            unfold set_state
            rw [setStateAux_cons_unchanged s j rest p d c st ch child hc hb]
            rw [getAt]
            simp only [Node.children_mk, List.getElem?_set_self, hlt, if_true]
            exact ha1

/-- The spec's end-to-end scenario tree after `set_state(sub, Unchecked)`:
root `proj` Partial, file `a.py` Checked, directory `sub` Unchecked with
file `c.py` Unchecked. Used as the concrete instance for several witnesses. -/
def exTree : Node :=
  Node.mk "proj" true true CheckState.PartiallyChecked
    [Node.mk "proj/a.py" false true CheckState.Checked [],
     Node.mk "proj/sub" true true CheckState.Unchecked
       [Node.mk "proj/sub/c.py" false true CheckState.Unchecked []]]

/-- Witness for C1: re-checking `c.py` (position [1,0], two levels below the
root) leaves the root itself (ancestor position []) agreeing with its
recomputed state. -/
theorem set_state_recomputes_ancestors_witness :
    ∃ a, getAt (set_state exTree [1, 0] CheckState.Checked) [] = some a ∧
      a.state = recompute a.children :=
  set_state_recomputes_ancestors CheckState.Checked [1, 0] exTree []
    (by decide) (by decide) (Or.inl rfl) (by decide) ⟨[1, 0], rfl⟩

/-- C2: after `set_state` of a directory node to a fully determined state
S, the node itself holds S and every checkable node of its subtree holds S,
regardless of the subtree's prior (possibly mixed) states. Hypotheses: the
tree is well-formed and consistent, as built trees are. -/
theorem set_state_cascades_subtree (t : Node) (pos : List Nat) (s : CheckState)
    (dnode : Node) (hwf : Wf t) (hcons : Consistent t)
    (hget : getAt t pos = some dnode) (hdir : dnode.isDir = true)
    (hs : s = CheckState.Checked ∨ s = CheckState.Unchecked) :
    ∃ d', getAt (set_state t pos s) pos = some d' ∧ d'.state = s ∧
      ∀ m ∈ subNodesList d'.children, m.checkable = true → m.state = s := by
  have hwfd : Wf dnode := wf_restrict hwf (getAt_mem hget)
  have hconsd : Consistent dnode := consistent_restrict hcons (getAt_mem hget)
  refine ⟨toggleNode s dnode, getAt_set_state s pos t dnode hget,
    toggleNode_state s dnode, ?_⟩
  cases dnode with
  | mk p d c st ch =>
    by_cases hst : st = s
    · rw [toggleNode, if_pos hst]
      intro m hm hmc
      have hall := consistent_forces_node s (Node.mk p d c st ch)
        hwfd hconsd hs (by simpa using hst)
      exact hall m (by
        rw [subNodes_mk]
        exact List.mem_cons_of_mem _ (by simpa using hm)) hmc
    · rw [toggleNode, if_neg hst]
      simp only [Node.children_mk]
      have hdt : d = true := by simpa using hdir
      have hsp : ¬ s = CheckState.PartiallyChecked := by
        rcases hs with rfl | rfl <;> simp
      rw [if_pos ⟨hdt, hsp⟩]
      intro m hm hmc
      exact cascadeList_forces s ch
        (fun k hk => hwfd k (by
          rw [subNodes_mk]; exact List.mem_cons_of_mem _ hk)) m hm hmc

/-- Witness for C2: unchecking `sub` in the scenario tree forces its whole
subtree Unchecked. -/
theorem set_state_cascades_subtree_witness :
    ∃ d', getAt (set_state exTree [1] CheckState.Checked) [1] = some d' ∧
      d'.state = CheckState.Checked ∧
      ∀ m ∈ subNodesList d'.children,
        m.checkable = true → m.state = CheckState.Checked :=
  set_state_cascades_subtree exTree [1] CheckState.Checked
    (Node.mk "proj/sub" true true CheckState.Unchecked
      [Node.mk "proj/sub/c.py" false true CheckState.Unchecked []])
    (by decide) (by decide) rfl rfl (Or.inl rfl)

/-- C4: the system-initiated upward recomputation never cascades downward.
First: `_update_parent_state` on an item replaces only the item's own check
state — its children (hence every descendant and all their states) are left
untouched, as are its path, kind and checkability. Second: within a full
`set_state`, every node that is neither an ancestor of the toggled position
nor inside its subtree keeps its entire subtree unchanged — the upward
recomputation changes ancestor states only, and only user toggles cascade. -/
theorem recompute_never_cascades :
    (∀ n : Node, (updateParentState n).children = n.children ∧
       (updateParentState n).path = n.path ∧
       (updateParentState n).isDir = n.isDir ∧
       (updateParentState n).checkable = n.checkable) ∧
    (∀ (t : Node) (pos q : List Nat) (s : CheckState),
       (∀ rr, q ++ rr ≠ pos) → (∀ rr, pos ++ rr ≠ q) →
       getAt (set_state t pos s) q = getAt t q) := by
  constructor
  · intro n
    cases n with
    | mk p d c st ch => simp [updateParentState]
  · intro t pos q s
    induction pos generalizing t q with
    | nil =>
      intro h1 h2
      exact absurd (by simp : ([] : List Nat) ++ q = q) (h2 q)
    | cons i rest ih =>
      intro h1 h2
      cases q with
      | nil => exact absurd (by simp : ([] : List Nat) ++ (i :: rest) = i :: rest) (h1 (i :: rest))
      | cons j qrest =>
        cases t with
        | mk p d c st ch =>
          cases hc : ch[i]? with
          | none =>
            unfold set_state
            rw [setStateAux_cons_none s i rest p d c st ch hc]
          | some child =>
            have hlt : i < ch.length := (List.getElem?_eq_some.mp hc).1
            by_cases hij : j = i
            · subst hij
              have h1' : ∀ rr, qrest ++ rr ≠ rest := by
                intro rr hrr
                exact h1 rr (by simp [hrr])
              have h2' : ∀ rr, rest ++ rr ≠ qrest := by
                intro rr hrr
                exact h2 rr (by simp [hrr])
              cases hb : (setStateAux s rest child).2 with
              | true =>
                unfold set_state
                rw [setStateAux_cons_changed s j rest p d c st ch child hc hb]
                rw [getAt, getAt]
                simp only [Node.children_mk, List.getElem?_set_self, hlt,
                  if_true, hc]
                exact ih child qrest h1' h2'
              | false =>
                unfold set_state
                rw [setStateAux_cons_unchanged s j rest p d c st ch child hc hb]
                rw [getAt, getAt]
                simp only [Node.children_mk, List.getElem?_set_self, hlt,
                  if_true, hc]
                exact ih child qrest h1' h2'
            · have hne : i ≠ j := fun hh => hij hh.symm
              cases hb : (setStateAux s rest child).2 with
              | true =>
                unfold set_state
                rw [setStateAux_cons_changed s i rest p d c st ch child hc hb]
                rw [getAt, getAt]
                simp only [Node.children_mk, List.getElem?_set_ne hne]
              | false =>
                unfold set_state
                rw [setStateAux_cons_unchanged s i rest p d c st ch child hc hb]
                rw [getAt, getAt]
                simp only [Node.children_mk, List.getElem?_set_ne hne]

/-- Witness for C4: toggling `sub` leaves the sibling file `a.py` (and its
subtree) untouched. -/
theorem recompute_never_cascades_witness :
    getAt (set_state exTree [1] CheckState.Checked) [0] = getAt exTree [0] :=
  recompute_never_cascades.2 exTree [1] [0] CheckState.Checked
    (by intro rr h; simp at h) (by intro rr h; simp at h)

/-! The ignore matcher. -/

theorem str_ext {s t : String} (h : s.data = t.data) : s = t := by
  cases s
  cases t
  exact congrArg String.mk (by simpa using h)

theorem contains_iff_mem {l : List String} {a : String} :
    l.contains a = true ↔ a ∈ l := by
  simp [List.contains_eq_any_beq, List.any_eq_true]

theorem startswith_star_dot_iff (p : String) :
    startswith p "*." = true ↔ ∃ suffix : String, p = "*." ++ suffix := by
  constructor
  · intro h
    rw [startswith] at h
    have hd : ("*." : String).data = ['*', '.'] := rfl
    rw [hd] at h
    cases p with
    | mk l =>
      cases l with
      | nil => simp [List.isPrefixOf] at h
      | cons x xs =>
        cases xs with
        | nil => simp [List.isPrefixOf] at h
        | cons y ys =>
          simp only [List.isPrefixOf, List.isPrefixOf_nil_left, Bool.and_true,
            Bool.and_eq_true, beq_iff_eq] at h
          obtain ⟨h1, h2⟩ := h
          refine ⟨String.mk ys, str_ext ?_⟩
          simp [← h1, ← h2]
  · rintro ⟨suffix, rfl⟩
    rw [startswith]
    have hd : ("*." ++ suffix).data = '*' :: '.' :: suffix.data := by simp
    rw [hd]
    simp [List.isPrefixOf]

theorem drop1_star_dot (suffix : String) :
    drop1 ("*." ++ suffix) = "." ++ suffix := by
  apply str_ext
  simp [drop1]

theorem should_ignore_iff (name : String) (patterns : List String) :
    should_ignore name patterns = true ↔
      (name ∈ patterns ∨
       ∃ suffix : String, ("*." ++ suffix) ∈ patterns ∧
         endswith name ("." ++ suffix) = true) := by
  rw [should_ignore, Bool.or_eq_true]
  constructor
  · rintro (h | h)
    · exact Or.inl (contains_iff_mem.mp h)
    · right
      rcases List.any_eq_true.mp h with ⟨p, hp, hcond⟩
      simp only [Bool.and_eq_true] at hcond
      obtain ⟨hsw, hew⟩ := hcond
      rcases (startswith_star_dot_iff p).mp hsw with ⟨suffix, rfl⟩
      rw [drop1_star_dot] at hew
      exact ⟨suffix, hp, hew⟩
  · rintro (h | ⟨suffix, hp, hend⟩)
    · exact Or.inl (contains_iff_mem.mpr h)
    · right
      refine List.any_eq_true.mpr ⟨"*." ++ suffix, hp, ?_⟩
      simp only [Bool.and_eq_true]
      refine ⟨(startswith_star_dot_iff _).mpr ⟨suffix, rfl⟩, ?_⟩
      rw [drop1_star_dot]
      exact hend

/-- C7: `should_ignore` holds exactly when the name is a member of the
pattern set, or some pattern of the form "*." followed by a suffix matches
the end "." followed by that suffix of the name; checked on the spec's three
concrete examples. -/
theorem should_ignore_characterization :
    (∀ (name : String) (patterns : List String),
       should_ignore name patterns = true ↔
         (name ∈ patterns ∨
          ∃ suffix : String, ("*." ++ suffix) ∈ patterns ∧
            endswith name ("." ++ suffix) = true)) ∧
    should_ignore "node_modules" DEFAULT_IGNORE_PATTERNS = true ∧
    should_ignore "app.log" ["*.log"] = true ∧
    should_ignore "app.log.bak" ["*.log"] = false :=
  ⟨should_ignore_iff, by decide, by decide, by decide⟩

/-- C5: when the root path does not stat as a directory (missing path, plain
file, or special file), the build fails with the invalid-root error and no
tree value is produced. -/
theorem buildTree_invalid_root (rootPath : String) (fsRoot : Option FSEntry)
    (pats : List String) (h : isDirRoot fsRoot = false) :
    buildTree rootPath fsRoot pats = Except.error BuildError.invalidRoot := by
  cases fsRoot with
  | none => rfl
  | some e =>
    cases e with
    | file n => rfl
    | dir n r es => simp [isDirRoot] at h
    | other n => rfl

/-- Witness for C5 at a missing root path. -/
theorem buildTree_invalid_root_witness :
    buildTree "/missing" none DEFAULT_IGNORE_PATTERNS =
      Except.error BuildError.invalidRoot :=
  buildTree_invalid_root "/missing" none DEFAULT_IGNORE_PATTERNS rfl

/-! Entries that are neither regular files nor directories. -/

theorem populateEntries_insert_other (pats : List String) (dirPath : String)
    (name : String) (l : List FSEntry) :
    populateEntries pats dirPath (insertByName (FSEntry.other name) l) =
      populateEntries pats dirPath l := by
  induction l with
  | nil =>
    rw [insertByName, populateEntries.eq_4, populateEntries.eq_1]
    simp
  | cons x xs ih =>
    rw [insertByName]
    by_cases hle : strLe (entryName (FSEntry.other name)) (entryName x) = true
    · rw [if_pos hle, populateEntries.eq_4]
      simp
    · rw [if_neg hle]
      cases x with
      | dir n r sub => rw [populateEntries.eq_2, populateEntries.eq_2, ih]
      | file n => rw [populateEntries.eq_3, populateEntries.eq_3, ih]
      | other n => rw [populateEntries.eq_4, populateEntries.eq_4, ih]

/-- C8: a directory entry that is neither a regular file nor a directory
(`isdir` and `isfile` both fail: sockets, devices, dangling symlinks) is
silently skipped by the build walk: the populated children are exactly those
produced without the entry — no node, no count, no error row. -/
theorem populate_skips_other_entries (pats : List String) (dirPath : String)
    (r : Bool) (name : String) (entries : List FSEntry) :
    populateRec pats dirPath r (FSEntry.other name :: entries) =
      populateRec pats dirPath r entries := by
  rw [populateRec, populateRec]
  by_cases hr : r = true
  · rw [if_pos hr, if_pos hr, sortByName]
    exact populateEntries_insert_other pats dirPath name (sortByName entries)
  · rw [if_neg hr, if_neg hr]

/-! Invariants of the freshly populated tree (before and after the final
check-all pass). -/

theorem subNodesList_append (a b : List Node) :
    subNodesList (a ++ b) = subNodesList a ++ subNodesList b := by
  induction a with
  | nil => simp
  | cons x xs ih => simp [ih]

/-- Facts about every item as `_populate_recursive` creates it: no check
state set yet (Qt default Unchecked); non-checkable items are the synthetic
error rows (no path data, no dir flag, no children); every directory item is
checkable; file items are leaves; checkable file items carry a real path. -/
def rawOk (m : Node) : Prop :=
  m.state = CheckState.Unchecked ∧
  (m.checkable = false → m.path = "" ∧ m.isDir = false ∧ m.children = []) ∧
  (m.isDir = true → m.checkable = true) ∧
  (m.isDir = false → m.children = []) ∧
  (m.isDir = false → m.checkable = true → ¬ m.path = "")

/-- The same structural facts after the final check-all pass, with every
checkable item now Checked and the error rows still Unchecked. -/
def builtOk (m : Node) : Prop :=
  (m.checkable = true → m.state = CheckState.Checked) ∧
  (m.checkable = false →
    m.path = "" ∧ m.isDir = false ∧ m.children = [] ∧
      m.state = CheckState.Unchecked) ∧
  (m.isDir = true → m.checkable = true) ∧
  (m.isDir = false → m.children = []) ∧
  (m.isDir = false → m.checkable = true → ¬ m.path = "")

theorem joinPath_ne_empty (a b : String) : ¬ joinPath a b = "" := by
  intro h
  have hdata := congrArg String.data h
  simp [joinPath] at hdata

mutual
theorem populateRec_rawOk (pats : List String) (dirPath : String) (r : Bool)
    (entries : List FSEntry) :
    ∀ m ∈ subNodesList (populateRec pats dirPath r entries), rawOk m := by
  rw [populateRec]
  by_cases hr : r = true
  · rw [if_pos hr]
    exact populateEntries_rawOk pats dirPath (sortByName entries)
  · rw [if_neg hr]
    intro m hm
    have hm2 : m = errorChildNode := by
      simpa [errorChildNode] using hm
    subst hm2
    exact ⟨rfl, fun _ => ⟨rfl, rfl, rfl⟩, by simp [errorChildNode],
      fun _ => rfl, by simp [errorChildNode]⟩
termination_by sizeOf entries + 1
decreasing_by simp_arith [sortByName_sizeOf]

theorem populateEntries_rawOk (pats : List String) (dirPath : String)
    (es : List FSEntry) :
    ∀ m ∈ subNodesList (populateEntries pats dirPath es), rawOk m := by
  cases es with
  | nil =>
    rw [populateEntries.eq_1]
    intro m hm
    simp at hm
  | cons e rest =>
    cases e with
    | dir n r sub =>
      rw [populateEntries.eq_2]
      by_cases hig : should_ignore (entryName (FSEntry.dir n r sub)) pats = true
      · rw [if_pos hig]
        intro m hm
        rw [List.nil_append] at hm
        exact populateEntries_rawOk pats dirPath rest m hm
      · rw [if_neg hig]
        intro m hm
        rw [subNodesList_append] at hm
        rcases List.mem_append.mp hm with h1 | h2
        · have h1' : m ∈ subNodes (Node.mk (joinPath dirPath n) true true
              CheckState.Unchecked (populateRec pats (joinPath dirPath n) r sub)) := by
            simpa using h1
          rw [subNodes_mk] at h1'
          rcases List.mem_cons.mp h1' with rfl | h3
          · exact ⟨rfl, by simp, fun _ => rfl, by simp, by simp⟩
          · exact populateRec_rawOk pats (joinPath dirPath n) r sub m h3
        · exact populateEntries_rawOk pats dirPath rest m h2
    | file n =>
      rw [populateEntries.eq_3]
      by_cases hig : should_ignore (entryName (FSEntry.file n)) pats = true
      · rw [if_pos hig]
        intro m hm
        rw [List.nil_append] at hm
        exact populateEntries_rawOk pats dirPath rest m hm
      · rw [if_neg hig]
        intro m hm
        rw [subNodesList_append] at hm
        rcases List.mem_append.mp hm with h1 | h2
        · have h1' : m ∈ subNodes (Node.mk (joinPath dirPath n) false true
              CheckState.Unchecked []) := by
            simpa using h1
          rw [subNodes_mk] at h1'
          rcases List.mem_cons.mp h1' with rfl | h3
          · exact ⟨rfl, by simp, by simp, fun _ => rfl,
              fun _ _ => joinPath_ne_empty dirPath n⟩
          · simp at h3
        · exact populateEntries_rawOk pats dirPath rest m h2
    | other n =>
      rw [populateEntries.eq_4]
      intro m hm
      have hm2 : m ∈ subNodesList (populateEntries pats dirPath rest) := by
        rcases ite_eq_or_eq (should_ignore (entryName (FSEntry.other n)) pats = true)
            ([] : List Node) ([] : List Node) with hh | hh <;>
          simpa [hh] using hm
      exact populateEntries_rawOk pats dirPath rest m hm2
termination_by sizeOf es
decreasing_by all_goals simp_arith
end

mutual
theorem cascadeNode_builtOk (n : Node) (hraw : ∀ m ∈ subNodes n, rawOk m) :
    ∀ m ∈ subNodes (cascadeNode CheckState.Checked n), builtOk m := by
  cases n with
  | mk p d c st ch =>
    obtain ⟨hst, hnc, hdc, hfc, hfp⟩ := hraw (Node.mk p d c st ch) (self_mem_subNodes _)
    simp only [Node.state_mk, Node.checkable_mk, Node.isDir_mk, Node.children_mk,
      Node.path_mk] at hst hnc hdc hfc hfp
    rw [cascadeNode]
    by_cases hc : c = true
    · rw [if_pos hc]
      by_cases hd : d = true
      · rw [if_pos hd]
        intro m hm
        rw [subNodes_mk] at hm
        rcases List.mem_cons.mp hm with rfl | hm2
        · refine ⟨fun _ => by simp, ?_, fun _ => by simpa using hc, ?_, ?_⟩
          · intro hcf
            simp only [Node.checkable_mk] at hcf
            rw [hc] at hcf
            cases hcf
          · intro hdf
            simp only [Node.isDir_mk] at hdf
            rw [hd] at hdf
            cases hdf
          · intro hdf
            simp only [Node.isDir_mk] at hdf
            rw [hd] at hdf
            cases hdf
        · exact cascadeList_builtOk ch
            (fun k hk => hraw k (by
              rw [subNodes_mk]; exact List.mem_cons_of_mem _ hk)) m hm2
      · rw [if_neg hd]
        have hch : ch = [] := hfc (bool_false_of_not_true hd)
        subst hch
        intro m hm
        rw [subNodes_mk] at hm
        rcases List.mem_cons.mp hm with rfl | hm2
        · refine ⟨fun _ => by simp, ?_, fun _ => by simpa using hc,
            fun _ => by simp, ?_⟩
          · intro hcf
            simp only [Node.checkable_mk] at hcf
            rw [hc] at hcf
            cases hcf
          · intro _ _
            simpa using hfp (bool_false_of_not_true hd) hc
        · simp at hm2
    · rw [if_neg hc]
      have hcf : c = false := bool_false_of_not_true hc
      obtain ⟨hp, hdf, hch⟩ := hnc hcf
      subst hch
      intro m hm
      rw [subNodes_mk] at hm
      rcases List.mem_cons.mp hm with rfl | hm2
      · refine ⟨?_, fun _ => by simp [hp, hdf, hst], fun hdt => ?_,
          fun _ => by simp, fun _ hct => ?_⟩
        · intro hct
          simp only [Node.checkable_mk] at hct
          rw [hcf] at hct
          cases hct
        · simp only [Node.isDir_mk] at hdt
          rw [hdf] at hdt
          cases hdt
        · simp only [Node.checkable_mk] at hct
          rw [hcf] at hct
          cases hct
      · simp at hm2

theorem cascadeList_builtOk (l : List Node) (hraw : ∀ m ∈ subNodesList l, rawOk m) :
    ∀ m ∈ subNodesList (cascadeList CheckState.Checked l), builtOk m := by
  cases l with
  | nil =>
    intro m hm
    rw [cascadeList] at hm
    simp at hm
  | cons x xs =>
    rw [cascadeList]
    intro m hm
    rw [subNodesList_cons] at hm
    rcases List.mem_append.mp hm with h1 | h2
    · exact cascadeNode_builtOk x
        (fun k hk => hraw k (by
          rw [subNodesList_cons]; exact List.mem_append.mpr (Or.inl hk))) m h1
    · exact cascadeList_builtOk xs
        (fun k hk => hraw k (by
          rw [subNodesList_cons]; exact List.mem_append.mpr (Or.inr hk))) m h2
end

/-- Every node of a successfully built tree satisfies the structural
invariant `builtOk`. -/
theorem buildTree_builtOk {rootPath : String} {fsRoot : Option FSEntry}
    {pats : List String} {t : Node} (h : buildTree rootPath fsRoot pats = .ok t) :
    ∀ m ∈ subNodes t, builtOk m := by
  cases fsRoot with
  | none => cases h
  | some e =>
    cases e with
    | file n => cases h
    | other n => cases h
    | dir n r es =>
      rw [buildTree] at h
      injection h with h
      subst h
      apply cascadeNode_builtOk
      intro m hm
      rw [subNodes_mk] at hm
      rcases List.mem_cons.mp hm with rfl | hm2
      · exact ⟨rfl, by simp, fun _ => rfl, by simp, by simp⟩
      · exact populateRec_rawOk pats rootPath r es m hm2

/-- C9: after a successful build, every checkable node of the tree
(including the root) is Checked; consequently every directory node's state
equals `recompute` applied to its children, and every non-directory node's
state is Checked or Unchecked, never PartiallyChecked. -/
theorem buildTree_initial_states {rootPath : String} {fsRoot : Option FSEntry}
    {pats : List String} {t : Node}
    (h : buildTree rootPath fsRoot pats = .ok t) :
    (∀ m ∈ subNodes t, m.checkable = true → m.state = CheckState.Checked) ∧
    (∀ m ∈ subNodes t, m.isDir = true → m.state = recompute m.children) ∧
    (∀ m ∈ subNodes t, m.isDir = false →
      (m.state = CheckState.Checked ∨ m.state = CheckState.Unchecked)) := by
  have hok := buildTree_builtOk h
  refine ⟨fun m hm hmc => (hok m hm).1 hmc, ?_, ?_⟩
  · intro m hm hmd
    have hcb := (hok m hm).2.2.1 hmd
    have hstC := (hok m hm).1 hcb
    rw [hstC]
    have : recompute m.children = CheckState.Checked := by
      rw [recompute_eq_checked_iff]
      intro ck hck hckb
      have hckmem : ck ∈ subNodes t :=
        mem_subNodes_trans t hm (children_mem_subNodes hck)
      exact (hok ck hckmem).1 hckb
    rw [this]
  · intro m hm hmd
    by_cases hcb : m.checkable = true
    · exact Or.inl ((hok m hm).1 hcb)
    · exact Or.inr ((hok m hm).2.1 (bool_false_of_not_true hcb)).2.2.2

/-- The spec's end-to-end scenario filesystem: `proj/` with `a.py`,
`b.pyc` (ignored by the default pattern set) and `sub/c.py`. -/
def exFS : FSEntry :=
  FSEntry.dir "proj" true
    [FSEntry.file "a.py", FSEntry.dir "sub" true [FSEntry.file "c.py"],
     FSEntry.file "b.pyc"]

/-- The tree the build produces for `exFS`. -/
def exBuiltTree : Node :=
  Node.mk "proj" true true CheckState.Checked
    [Node.mk "proj/a.py" false true CheckState.Checked [],
     Node.mk "proj/sub" true true CheckState.Checked
       [Node.mk "proj/sub/c.py" false true CheckState.Checked []]]

/-- Witness for C9 on the scenario filesystem. -/
theorem buildTree_initial_states_witness :
    (∀ m ∈ subNodes exBuiltTree,
       m.checkable = true → m.state = CheckState.Checked) ∧
    (∀ m ∈ subNodes exBuiltTree,
       m.isDir = true → m.state = recompute m.children) ∧
    (∀ m ∈ subNodes exBuiltTree, m.isDir = false →
       (m.state = CheckState.Checked ∨ m.state = CheckState.Unchecked)) :=
  buildTree_initial_states
    (show buildTree "proj" (some exFS) DEFAULT_IGNORE_PATTERNS = .ok exBuiltTree by
      simp +decide [exFS, exBuiltTree, buildTree, populateRec, populateEntries,
        sortByName, insertByName, entryName, cascadeNode, cascadeList, joinPath,
        errorChildNode])

/-! The selection query (C6). -/

mutual
theorem get_selected_files_eq_spec (t : Node)
    (h1 : ∀ m ∈ subNodes t, m.checkable = false → m.path = "")
    (h2 : ∀ m ∈ subNodes t, m.isDir = false → m.checkable = true → ¬ m.path = "") :
    get_selected_files t = selectedSpec t := by
  cases t with
  | mk p d c st ch =>
    have hhead1 := h1 (Node.mk p d c st ch) (self_mem_subNodes _)
    have hhead2 := h2 (Node.mk p d c st ch) (self_mem_subNodes _)
    simp only [Node.checkable_mk, Node.isDir_mk, Node.path_mk] at hhead1 hhead2
    have htail := selectedList_eq_spec ch
      (fun k hk => h1 k (by
        rw [subNodes_mk]; exact List.mem_cons_of_mem _ hk))
      (fun k hk => h2 k (by
        rw [subNodes_mk]; exact List.mem_cons_of_mem _ hk))
    rw [get_selected_files, selectedSpec, subNodes_mk, List.filterMap_cons]
    simp only [Node.checkable_mk, Node.isDir_mk, Node.path_mk, Node.state_mk]
    rw [htail]
    by_cases hd : d = false
    · subst hd
      by_cases hst : st = CheckState.Checked
      · subst hst
        by_cases hcb : c = true
        · subst hcb
          have hp : ¬ p = "" := hhead2 rfl rfl
          simp [hp]
        · have hp : p = "" := hhead1 (bool_false_of_not_true hcb)
          subst hp
          simp [hcb]
      · simp [hst]
    · simp [hd]

theorem selectedList_eq_spec (l : List Node)
    (h1 : ∀ m ∈ subNodesList l, m.checkable = false → m.path = "")
    (h2 : ∀ m ∈ subNodesList l, m.isDir = false → m.checkable = true → ¬ m.path = "") :
    selectedList l = (subNodesList l).filterMap fun m =>
      if m.isDir = false ∧ m.checkable = true ∧ m.state = CheckState.Checked
      then some m.path else none := by
  cases l with
  | nil =>
    rw [selectedList]
    simp
  | cons x xs =>
    rw [selectedList, subNodesList_cons, List.filterMap_append]
    rw [get_selected_files_eq_spec x
      (fun k hk => h1 k (by
        rw [subNodesList_cons]; exact List.mem_append.mpr (Or.inl hk)))
      (fun k hk => h2 k (by
        rw [subNodesList_cons]; exact List.mem_append.mpr (Or.inl hk)))]
    rw [selectedList_eq_spec xs
      (fun k hk => h1 k (by
        rw [subNodesList_cons]; exact List.mem_append.mpr (Or.inr hk)))
      (fun k hk => h2 k (by
        rw [subNodesList_cons]; exact List.mem_append.mpr (Or.inr hk)))]
    rw [selectedSpec]
end

/-- C6 (amended): `get_selected_files` returns exactly the paths of the
nodes that are files, selectable and Checked — the spec-side filter over the
tree's depth-first node order (`selectedSpec`): directories, unchecked files
and error rows are never included, and when nothing qualifies the result is
the empty list, not an error. The output comes in depth-first traversal
order of the tree, NOT re-sorted. Hypotheses: the path-data facts of built
trees (non-checkable error rows carry no path, checkable files carry one). -/
theorem get_selected_files_characterization (t : Node)
    (h1 : ∀ m ∈ subNodes t, m.checkable = false → m.path = "")
    (h2 : ∀ m ∈ subNodes t, m.isDir = false → m.checkable = true → ¬ m.path = "") :
    get_selected_files t = selectedSpec t :=
  get_selected_files_eq_spec t h1 h2

/-- Witness for the amended C6 on the scenario tree. -/
theorem get_selected_files_characterization_witness :
    get_selected_files exBuiltTree = selectedSpec exBuiltTree :=
  get_selected_files_characterization exBuiltTree (by decide) (by decide)

/-- A root whose children are the directory `x` (holding file `y`) and the
file `x-z`: sorted sibling names, but path order inverts ('-' < '/'). -/
def cexFS : FSEntry :=
  FSEntry.dir "r" true
    [FSEntry.dir "x" true [FSEntry.file "y"], FSEntry.file "x-z"]

/-- The tree built from `cexFS`. -/
def cexTree : Node :=
  Node.mk "r" true true CheckState.Checked
    [Node.mk "r/x" true true CheckState.Checked
       [Node.mk "r/x/y" false true CheckState.Checked []],
     Node.mk "r/x-z" false true CheckState.Checked []]

/-- Counterexample to C6 as stated: `get_selected_files` does not sort. On
the tree built from `cexFS` it returns [r/x/y, r/x-z], although
"r/x-z" < "r/x/y" in the string order used for the children — the output is
in depth-first traversal order and is not a sorted sequence. -/
theorem get_selected_files_not_sorted :
    buildTree "r" (some cexFS) DEFAULT_IGNORE_PATTERNS = .ok cexTree ∧
    get_selected_files cexTree = ["r/x/y", "r/x-z"] ∧
    strLe "r/x-z" "r/x/y" = true ∧ strLe "r/x/y" "r/x-z" = false ∧
    ¬ List.Pairwise (fun a b : String => strLe a b = true)
        (get_selected_files cexTree) := by
  refine ⟨?_, by decide, by decide, by decide, by decide⟩
  simp +decide [cexFS, cexTree, buildTree, populateRec, populateEntries,
    sortByName, insertByName, entryName, cascadeNode, cascadeList, joinPath,
    errorChildNode]

/-- C10: while a project root is present, `set_ignore_patterns` stores the
new pattern set and immediately repopulates the tree from that same root
with the new patterns. The rebuilt tree is exactly the fresh build output
for the new patterns — independent of the previously displayed tree, so any
selection state the user had toggled before the call is discarded — and
every checkable node of the rebuilt tree is reset to Checked. -/
theorem set_ignore_patterns_rebuilds (w : Widget) (patterns : List String)
    (stat : String → Option FSEntry) (root : String)
    (hroot : w.project_root = some root) :
    (set_ignore_patterns w patterns stat).ignore_patterns = patterns ∧
    (set_ignore_patterns w patterns stat).tree =
      (buildTree root (stat root) patterns).toOption ∧
    ∀ t, (set_ignore_patterns w patterns stat).tree = some t →
      ∀ m ∈ subNodes t, m.checkable = true → m.state = CheckState.Checked := by
  rw [set_ignore_patterns]
  simp only [hroot]
  rw [populate_tree]
  simp only []
  cases hb : buildTree root (stat root) patterns with
  | ok t0 =>
    refine ⟨rfl, rfl, ?_⟩
    intro t ht m hm hmc
    injection ht with ht
    subst ht
    exact (buildTree_builtOk hb m hm).1 hmc
  | error e =>
    exact ⟨rfl, rfl, fun t ht => by cases ht⟩

/-- The stat function of the scenario filesystem. -/
def exStat : String → Option FSEntry :=
  fun p => if p = "proj" then some exFS else none

/-- Witness for C10: with the scenario tree partially unchecked on display,
changing the patterns rebuilds from the same root. -/
theorem set_ignore_patterns_rebuilds_witness :
    (set_ignore_patterns
        ⟨some "proj", DEFAULT_IGNORE_PATTERNS, some exTree⟩
        ["*.pyc"] exStat).ignore_patterns = ["*.pyc"] ∧
    (set_ignore_patterns
        ⟨some "proj", DEFAULT_IGNORE_PATTERNS, some exTree⟩
        ["*.pyc"] exStat).tree =
      (buildTree "proj" (exStat "proj") ["*.pyc"]).toOption ∧
    ∀ t, (set_ignore_patterns
        ⟨some "proj", DEFAULT_IGNORE_PATTERNS, some exTree⟩
        ["*.pyc"] exStat).tree = some t →
      ∀ m ∈ subNodes t, m.checkable = true → m.state = CheckState.Checked :=
  set_ignore_patterns_rebuilds
    ⟨some "proj", DEFAULT_IGNORE_PATTERNS, some exTree⟩ ["*.pyc"] exStat "proj" rfl
